import Mathlib

/-!
Shallow embedding of `KMeans.py` (creachadair/kmeans).

Modelling conventions:
* Numeric point components are modelled as exact rationals `ℚ`; the source's
  `x / len(pts)` in `centroid` is exact rational division (numeric rounding of
  Python's machine arithmetic is outside this model).
* Python `set` objects (`_data` and the membership sets in `_kmem`) are
  modelled as duplicate-free lists in insertion order: `set.add` appends when
  the element is absent, `set.discard` removes it, and iteration follows the
  list order.  (The spec pins the implementation-defined iteration order of
  Python sets to insertion order.)
* A Python exception is modelled explicitly: operations return the raised
  error (if any) together with the object state after the call, since the
  source mutates `self` in place and an exception preserves whatever
  mutations already happened.
* `TypeError` raised by `len()` on a non-sequence (a bare scalar reaching
  `euclidean_distance`) is the `KError.TypeMismatch` case.
* `IndexError` from `self._kctr[pos]` / `self._kmem[ploc]` on states whose
  centroid and membership lists have drifted apart (reachable only through
  `reset_centroids`) is not modelled: list writes out of range are ignored and
  reads out of range yield a default.  No claim exercises those states.
-/

/-- Errors raised by the source (`ValueError` variants, plus `TypeError`). -/
inductive KError where
  | DimensionMismatch   -- "Points are of different dimensionality."
  | EmptySequence       -- "Cannot find argmin of empty sequence"
  | NoCentroidsDefined  -- "No cluster centroids are defined"
  | InsufficientData    -- "Insufficient data to choose %d centroids"
  | TypeMismatch        -- Python TypeError, e.g. len() of a bare scalar
deriving DecidableEq, Repr

/-- A stored point: an ordered tuple of numeric components. -/
abbrev Point := List ℚ

/-- A caller-supplied argument: either a bare scalar or a tuple of
components (the two shapes the source distinguishes by duck typing). -/
inductive PtArg where
  | scalar (x : ℚ)
  | pt (p : List ℚ)
deriving DecidableEq, Repr

/-- The normalization the source performs at ingestion:
`tuple(iter(pt))` when `pt` is iterable, `(pt,)` on `TypeError`. -/
def normalizePt : PtArg → Point
  | .scalar x => [x]
  | .pt p => p

/-- Python `==` between a raw argument and a stored tuple: a bare scalar is
never equal to a tuple (even to the 1-tuple wrapping it); a tuple argument
compares componentwise. -/
def ptArgEqPoint : PtArg → Point → Bool
  | .scalar _, _ => false
  | .pt p, q => p = q

/-- Python `set.add` on the insertion-order list model. -/
def setAdd {α : Type} [DecidableEq α] (s : List α) (x : α) : List α :=
  if x ∈ s then s else s ++ [x]

/-- Python `set.discard` on the insertion-order list model: remove the
element if present (the list never holds duplicates). -/
def setDiscard {α : Type} [DecidableEq α] : List α → α → List α
  | [], _ => []
  | y :: s, x => if y = x then s else y :: setDiscard s x

/-- A distance metric as used internally (both arguments are stored tuples);
it may raise. -/
abbrev DistFn := Point → Point → Except KError ℚ

/-- Total squared Euclidean distance on tuples (the sum the source computes
once the length guard has passed). -/
def sqDist (p q : Point) : ℚ :=
  ((p.zip q).map (fun x => (x.1 - x.2) ^ 2)).sum

/-- `euclidean_distance(pt1, pt2)`: raises on a length mismatch, else returns
the sum of squared componentwise differences. -/
def euclidean_distance (pt1 pt2 : Point) : Except KError ℚ :=
  if pt1.length = pt2.length then .ok (sqDist pt1 pt2)
  else .error .DimensionMismatch

/-- `euclidean_distance` applied to a raw caller argument, as `find_cluster`
does: `len(pt1)` of a bare scalar raises `TypeError` before anything else. -/
def euclidean_distance_arg : PtArg → Point → Except KError ℚ
  | .scalar _, _ => .error .TypeMismatch
  | .pt p, q => euclidean_distance p q

/-- The scanning loop of `argmin`: `mv` is the best value so far, `idx` the
index of the next element of `xs` in the original sequence, `mp` the index of
the best element so far.  Comparison is strict (`cv < mv`), so the
first-seen minimum wins. -/
def argminAux {α : Type} (fn : α → Except KError ℚ) :
    List α → ℚ → Nat → Nat → Except KError Nat
  | [], _, _, mp => .ok mp
  | x :: xs, mv, idx, mp =>
    match fn x with
    | .error e => .error e
    | .ok cv =>
      if cv < mv then argminAux fn xs cv (idx + 1) idx
      else argminAux fn xs mv (idx + 1) mp

/-- `argmin(fn, C)`: offset of an element of `C` minimizing `fn`, raising
`EmptySequence` on an empty collection; errors raised by `fn` propagate. -/
def argmin {α : Type} (fn : α → Except KError ℚ) : List α → Except KError Nat
  | [] => .error .EmptySequence
  | x :: xs =>
    match fn x with
    | .error e => .error e
    | .ok mv => argminAux fn xs mv 1 0

/-- The mutable state of a `KMeans` object. -/
structure KMeans where
  kctr : List Point         -- self._kctr : cluster centroids
  kmem : List (List Point)  -- self._kmem : cluster affiliations (sets)
  data : List Point         -- self._data : sample data (a set)
deriving DecidableEq, Repr

/-- `clear()`: discard all data points, clusters, and centroids. -/
def clear (_s : KMeans) : KMeans := ⟨[], [], []⟩

/-- A freshly constructed object (`__init__` calls `clear`). -/
def initState : KMeans := ⟨[], [], []⟩

/-- `reset_clusters()`: replace every membership set with an empty one. -/
def reset_clusters (s : KMeans) : KMeans :=
  { s with kmem := s.kmem.map (fun _ => []) }

/-- `reset_centroids()`: discard the centroid list (membership is left
untouched). -/
def reset_centroids (s : KMeans) : KMeans :=
  { s with kctr := [] }

/-- `add_centroid(pt)`: the dedup guard `if pt not in self._kctr` compares the
RAW argument against the stored tuples; only then is the argument normalized
and appended, together with a fresh empty membership set. -/
def add_centroid (s : KMeans) (a : PtArg) : KMeans :=
  if s.kctr.any (ptArgEqPoint a) then s
  else { s with kctr := s.kctr ++ [normalizePt a], kmem := s.kmem ++ [[]] }

/-- `add_data(pt, *pts)`: normalizePt each argument and add it to the sample
set. -/
def add_data (s : KMeans) (args : List PtArg) : KMeans :=
  { s with data := args.foldl (fun d a => setAdd d (normalizePt a)) s.data }

/-- `random_centroids(k)`: fails with `InsufficientData` when the sample set
has fewer than `k` points; otherwise replaces the centroid list with `k`
distinct sampled points and the membership list with as many empty sets.  The
uniform random draw is modelled by the explicit `choice` parameter (the
source's loop guarantees `choice` has `k` distinct elements of the data). -/
def random_centroids (s : KMeans) (k : Nat) (choice : List Point) :
    Option KError × KMeans :=
  if s.data.length < k then (some KError.InsufficientData, s)
  else (none, { s with kctr := choice, kmem := choice.map (fun _ => []) })

/-- `find_cluster(pt)`: scan the membership sets for the raw point; on a hit
return that cluster's centroid, otherwise compute the nearest centroid
directly with the metric (applied to the raw, un-normalized argument). -/
def find_cluster (d : PtArg → Point → Except KError ℚ) (s : KMeans)
    (pt : PtArg) : Except KError Point :=
  match s.kmem.findIdx? (fun mem => mem.any (fun q => ptArgEqPoint pt q)) with
  | some pos => .ok (s.kctr.getD pos [])
  | none =>
    match argmin (fun c => d pt c) s.kctr with
    | .error e => .error e
    | .ok ploc => .ok (s.kctr.getD ploc [])

/-- The assignment loop of `start()`: each data point is added to the
membership set of its nearest centroid; a metric failure aborts the loop,
keeping the assignments already made. -/
def assignLoop (d : DistFn) (kctr : List Point) :
    List Point → List (List Point) → Option KError × List (List Point)
  | [], kmem => (none, kmem)
  | pt :: pts, kmem =>
    match argmin (fun c => d pt c) kctr with
    | .error e => (some e, kmem)
    | .ok ploc => assignLoop d kctr pts (kmem.set ploc (setAdd (kmem.getD ploc []) pt))

/-- `start()`: raise `NoCentroidsDefined` on an empty centroid list, else
clear the membership sets and assign every data point to its nearest
centroid. -/
def start (d : DistFn) (s : KMeans) : Option KError × KMeans :=
  if s.kctr.length = 0 then (some KError.NoCentroidsDefined, s)
  else
    let s0 := reset_clusters s
    let r := assignLoop d s0.kctr s0.data s0.kmem
    (r.1, { s0 with kmem := r.2 })

/-- The accumulation loop inside the local `centroid` helper of `step()`:
add the components of `p` into the running sums `cur` (a shorter point leaves
the trailing sums untouched, i.e. contributes zero there). -/
def addInto : List ℚ → List ℚ → List ℚ
  | acc, [] => acc
  | [], _ => []
  | a :: acc, v :: p => (a + v) :: addInto acc p

/-- `max(len(p) for p in pts)` (0 on an empty collection, which the caller
guards against). -/
def maxLen (pts : List Point) : Nat :=
  (pts.map List.length).foldl Nat.max 0

/-- The local `centroid(pts)` helper of `step()`: componentwise sums over a
zero-initialized vector of the maximal member length, divided by the number
of members. -/
def centroid (pts : List Point) : Point :=
  let cur := pts.foldl addInto (List.replicate (maxLen pts) 0)
  cur.map (fun x => x / (pts.length : ℚ))

/-- The recompute phase of `step()`: every cluster with at least one member
gets `centroid` of its members written into its centroid slot; empty clusters
keep their previous centroid.  (When `kmem` is longer than `kctr` — possible
only after `reset_centroids` — the source raises `IndexError` on a nonempty
excess entry; the model ignores the excess, see the header note.) -/
def recompute : List Point → List (List Point) → List Point
  | ctr, [] => ctr
  | [], _ => []
  | c :: ctr, m :: mem =>
    (if 0 < m.length then centroid m else c) :: recompute ctr mem

/-- One point of the reassign phase: compute the nearest centroid; if it
differs from the current cluster, discard the point there, add it to the new
cluster, and count a move. -/
def reassignPoint (d : DistFn) (kctr : List Point) (cloc : Nat)
    (m : List (List Point)) (mv : Nat) (pt : Point) :
    Option KError × List (List Point) × Nat :=
  match argmin (fun c => d pt c) kctr with
  | .error e => (some e, m, mv)
  | .ok ploc =>
    if ploc ≠ cloc then
      let m1 := m.set cloc (setDiscard (m.getD cloc []) pt)
      let m2 := m1.set ploc (setAdd (m1.getD ploc []) pt)
      (none, m2, mv + 1)
    else (none, m, mv)

/-- The inner loop of the reassign phase over a snapshot (`data.copy()`) of
one cluster. -/
def reassignCluster (d : DistFn) (kctr : List Point) (cloc : Nat) :
    List Point → List (List Point) → Nat → Option KError × List (List Point) × Nat
  | [], m, mv => (none, m, mv)
  | pt :: pts, m, mv =>
    match reassignPoint d kctr cloc m mv pt with
    | (some e, m', mv') => (some e, m', mv')
    | (none, m', mv') => reassignCluster d kctr cloc pts m' mv'

/-- One outer iteration of the reassign phase: snapshot the cluster at index
`cloc` as it stands now and reassign each of its points. -/
def reassignStep (d : DistFn) (kctr : List Point)
    (acc : Option KError × List (List Point) × Nat) (cloc : Nat) :
    Option KError × List (List Point) × Nat :=
  match acc with
  | (some e, m, mv) => (some e, m, mv)
  | (none, m, mv) => reassignCluster d kctr cloc (m.getD cloc []) m mv

/-- The full reassign phase of `step()`: `for cloc, data in
enumerate(self._kmem)`, with the move counter starting at zero. -/
def reassignAll (d : DistFn) (kctr : List Point) (kmem : List (List Point)) :
    Option KError × List (List Point) × Nat :=
  (List.range kmem.length).foldl (reassignStep d kctr) (none, kmem, 0)

/-- `step()`: recompute the centroids, then reassign every point, returning
the number of points moved.  An exception leaves the recomputed centroids and
the moves already made in place. -/
def step (d : DistFn) (s : KMeans) : Option KError × KMeans × Nat :=
  let kctr1 := recompute s.kctr s.kmem
  let r := reassignAll d kctr1 s.kmem
  (r.1, { s with kctr := kctr1, kmem := r.2.1 }, r.2.2)

/-- The `while self.step() != 0` loop of `run` for a nonnegative budget `n`
(the current value of `max`).  Returns the raised error (if any), the final
state, and the number of `step()` calls made.  One call is always made by the
loop test; `if max == 0: break` fires only after it. -/
def runLoopN (d : DistFn) : Nat → KMeans → Option KError × KMeans × Nat
  | n, s =>
    match step d s with
    | (some e, s', _) => (some e, s', 1)
    | (none, s', mv) =>
      if mv = 0 then (none, s', 1)
      else
        match n with
        | 0 => (none, s', 1)
        | n' + 1 =>
          let r := runLoopN d n' s'
          (r.1, r.2.1, r.2.2 + 1)

/-- `run(max)` for a nonnegative integer budget: `start()`, then the step
loop.  (A `None` or negative `max` makes the source loop until convergence
with no budget at all; those cases are not needed by the claims.)  The third
component counts the `step()` calls performed. -/
def run (d : DistFn) (s : KMeans) (mx : Nat) : Option KError × KMeans × Nat :=
  match start d s with
  | (some e, s') => (some e, s', 0)
  | (none, s') => runLoopN d mx s'

/-- The component-wise arithmetic mean as the spec words it: shorter members
are padded with zero on the missing trailing components before summing, and
each component sum is divided by the number of members. -/
def specCentroidMean (pts : List Point) : Point :=
  (List.range (maxLen pts)).map
    (fun j => ((pts.map (fun p => p.getD j 0)).sum) / (pts.length : ℚ))

/-- Total within-cluster squared distance of one cluster. -/
def clusterCost (c : Point) (mem : List Point) : ℚ :=
  (mem.map (fun p => sqDist p c)).sum

/-- The sum over all points of the squared distance to their assigned
centroid. -/
def cost (kctr : List Point) (kmem : List (List Point)) : ℚ :=
  ((kctr.zip kmem).map (fun x => clusterCost x.1 x.2)).sum

/-- `cost` read off a `KMeans` state. -/
def stateCost (s : KMeans) : ℚ := cost s.kctr s.kmem

/-- The membership sets are duplicate-free and hold points of dimension
`n` (true of every state reached by the engine on `n`-dimensional data). -/
abbrev memInv (n : Nat) (kmem : List (List Point)) : Prop :=
  (∀ m ∈ kmem, m.Nodup) ∧ (∀ m ∈ kmem, ∀ p ∈ m, p.length = n)

/-! ### Small list helpers -/

theorem mem_setAdd {α : Type} [DecidableEq α] {s : List α} {x y : α} :
    y ∈ setAdd s x ↔ y ∈ s ∨ y = x := by
  unfold setAdd
  split
  · constructor
    · exact Or.inl
    · rintro (h | rfl) <;> assumption
  · simp

theorem setAdd_nodup {α : Type} [DecidableEq α] {s : List α} (h : s.Nodup)
    (x : α) : (setAdd s x).Nodup := by
  unfold setAdd
  split
  · exact h
  · simp_all [List.nodup_append]

theorem setAdd_sum_map {α : Type} [DecidableEq α] (f : α → ℚ) (s : List α)
    (x : α) :
    ((setAdd s x).map f).sum = (s.map f).sum + (if x ∈ s then 0 else f x) := by
  unfold setAdd
  split <;> simp

theorem setDiscard_sum_map {α : Type} [DecidableEq α] (f : α → ℚ) :
    ∀ (s : List α) (x : α), x ∈ s →
    ((setDiscard s x).map f).sum = (s.map f).sum - f x
  | [], x, hx => by simp at hx
  | y :: s, x, hx => by
    by_cases h : y = x
    · subst h
      simp [setDiscard]
    · have hx' : x ∈ s := by
        rcases List.mem_cons.mp hx with heq | h2
        · exact absurd heq.symm h
        · exact h2
      simp only [setDiscard, if_neg h, List.map_cons, List.sum_cons]
      rw [setDiscard_sum_map f s x hx']
      ring

theorem mem_setDiscard {α : Type} [DecidableEq α] :
    ∀ (s : List α) (x q : α), q ∈ setDiscard s x → q ∈ s
  | [], _, _, hq => by simp [setDiscard] at hq
  | y :: s, x, q, hq => by
    by_cases h : y = x
    · rw [setDiscard, if_pos h] at hq
      exact List.mem_cons_of_mem y hq
    · rw [setDiscard, if_neg h] at hq
      rcases List.mem_cons.mp hq with heq | h2
      · exact heq ▸ List.mem_cons_self y s
      · exact List.mem_cons_of_mem y (mem_setDiscard s x q h2)

theorem mem_setDiscard_of_ne {α : Type} [DecidableEq α] :
    ∀ (s : List α) (x q : α), q ≠ x → q ∈ s → q ∈ setDiscard s x
  | [], _, _, _, hq => by simp at hq
  | y :: s, x, q, hne, hq => by
    by_cases h : y = x
    · rw [setDiscard, if_pos h]
      rcases List.mem_cons.mp hq with heq | h2
      · exact absurd (heq.trans h) hne
      · exact h2
    · rw [setDiscard, if_neg h]
      rcases List.mem_cons.mp hq with heq | h2
      · exact heq ▸ List.mem_cons_self y _
      · exact List.mem_cons_of_mem y (mem_setDiscard_of_ne s x q hne h2)

theorem setDiscard_nodup {α : Type} [DecidableEq α] :
    ∀ (s : List α), s.Nodup → ∀ x, (setDiscard s x).Nodup
  | [], _, _ => by simp [setDiscard]
  | y :: s, hnd, x => by
    rw [List.nodup_cons] at hnd
    by_cases h : y = x
    · rw [setDiscard, if_pos h]
      exact hnd.2
    · rw [setDiscard, if_neg h]
      exact List.nodup_cons.mpr
        ⟨fun hy => hnd.1 (mem_setDiscard s x y hy), setDiscard_nodup s hnd.2 x⟩

theorem getD_set_self {α : Type} (l : List α) (i : Nat) (x : α) (d : α)
    (h : i < l.length) : (l.set i x).getD i d = x := by
  rw [List.getD_eq_getElem?_getD, List.getElem?_set_self (by omega)]
  rfl

theorem getD_set_ne {α : Type} (l : List α) (i j : Nat) (x : α) (d : α)
    (h : i ≠ j) : (l.set i x).getD j d = l.getD j d := by
  rw [List.getD_eq_getElem?_getD, List.getElem?_set_ne h,
    ← List.getD_eq_getElem?_getD]

theorem getD_mem {α : Type} {l : List α} {i : Nat} (d : α)
    (h : i < l.length) : l.getD i d ∈ l := by
  rw [List.getD_eq_getElem l d h]
  exact List.getElem_mem h

/-! ### `argmin` lemmas -/

theorem argminAux_ok_bound {α : Type} (fn : α → Except KError ℚ) :
    ∀ (xs : List α) (mv : ℚ) (idx mp r : Nat),
      argminAux fn xs mv idx mp = .ok r →
      r = mp ∨ (idx ≤ r ∧ r < idx + xs.length) := by
  intro xs
  induction xs with
  | nil =>
    intro mv idx mp r h
    simp only [argminAux] at h
    exact Or.inl (Except.ok.inj h).symm
  | cons x xs ih =>
    intro mv idx mp r h
    cases hfn : fn x with
    | error e => simp only [argminAux, hfn] at h; exact absurd h (by simp)
    | ok cv =>
      simp only [argminAux, hfn] at h
      by_cases hlt : cv < mv
      · rw [if_pos hlt] at h
        rcases ih cv (idx + 1) idx r h with h1 | h2
        · exact Or.inr ⟨le_of_eq h1.symm, by simp only [List.length_cons]; omega⟩
        · exact Or.inr ⟨by omega, by simp only [List.length_cons]; omega⟩
      · rw [if_neg hlt] at h
        rcases ih mv (idx + 1) mp r h with h1 | h2
        · exact Or.inl h1
        · exact Or.inr ⟨by omega, by simp only [List.length_cons]; omega⟩

theorem argmin_ok_lt {α : Type} (fn : α → Except KError ℚ) (C : List α)
    (r : Nat) (h : argmin fn C = .ok r) : r < C.length := by
  cases C with
  | nil => simp [argmin] at h
  | cons x xs =>
    cases hfn : fn x with
    | error e => simp only [argmin, hfn] at h; exact absurd h (by simp)
    | ok mv =>
      simp only [argmin, hfn] at h
      rcases argminAux_ok_bound fn xs mv 1 0 r h with h1 | h2
      · simp [h1]
      · simp only [List.length_cons]; omega

theorem argminAux_total_min {α : Type} (fn : α → Except KError ℚ)
    (g : α → ℚ) (dflt : α) :
    ∀ (xs : List α), (∀ x ∈ xs, fn x = .ok (g x)) →
      ∀ (mv : ℚ) (idx mp : Nat),
      ∃ r, argminAux fn xs mv idx mp = .ok r ∧
        ((r = mp ∧ ∀ x ∈ xs, mv ≤ g x) ∨
         (∃ k, k < xs.length ∧ r = idx + k ∧ g (xs.getD k dflt) ≤ mv ∧
            ∀ x ∈ xs, g (xs.getD k dflt) ≤ g x)) := by
  intro xs
  induction xs with
  | nil =>
    intro _ mv idx mp
    exact ⟨mp, rfl, Or.inl ⟨rfl, by simp⟩⟩
  | cons x xs ih =>
    intro htot mv idx mp
    have hx : fn x = .ok (g x) := htot x (by simp)
    have htot' : ∀ y ∈ xs, fn y = .ok (g y) := fun y hy => htot y (by simp [hy])
    by_cases hlt : g x < mv
    · obtain ⟨r, hr, hcase⟩ := ih htot' (g x) (idx + 1) idx
      refine ⟨r, ?_, ?_⟩
      · simp only [argminAux, hx, if_pos hlt]; exact hr
      · rcases hcase with ⟨req, hall⟩ | ⟨k, hk, req, hle, hall⟩
        · refine Or.inr ⟨0, by simp, by omega, ?_, ?_⟩
          · simpa using le_of_lt hlt
          · intro y hy
            simp only [List.getD_cons_zero]
            rcases List.mem_cons.mp hy with heq | hy'
            · subst heq; exact le_refl _
            · exact hall y hy'
        · refine Or.inr ⟨k + 1, by simp only [List.length_cons]; omega,
            by omega, ?_, ?_⟩
          · simp only [List.getD_cons_succ]
            exact le_trans hle (le_of_lt hlt)
          · intro y hy
            simp only [List.getD_cons_succ]
            rcases List.mem_cons.mp hy with heq | hy'
            · subst heq; exact hle
            · exact hall y hy'
    · obtain ⟨r, hr, hcase⟩ := ih htot' mv (idx + 1) mp
      refine ⟨r, ?_, ?_⟩
      · simp only [argminAux, hx, if_neg hlt]; exact hr
      · rcases hcase with ⟨req, hall⟩ | ⟨k, hk, req, hle, hall⟩
        · refine Or.inl ⟨req, ?_⟩
          intro y hy
          rcases List.mem_cons.mp hy with heq | hy'
          · subst heq; exact le_of_not_lt hlt
          · exact hall y hy'
        · refine Or.inr ⟨k + 1, by simp only [List.length_cons]; omega,
            by omega, ?_, ?_⟩
          · simp only [List.getD_cons_succ]; exact hle
          · intro y hy
            simp only [List.getD_cons_succ]
            rcases List.mem_cons.mp hy with heq | hy'
            · subst heq; exact le_trans hle (le_of_not_lt hlt)
            · exact hall y hy'

theorem argmin_total_min {α : Type} (fn : α → Except KError ℚ) (g : α → ℚ)
    (dflt : α) (C : List α) (hne : C ≠ [])
    (htot : ∀ x ∈ C, fn x = .ok (g x)) :
    ∃ r, r < C.length ∧ argmin fn C = .ok r ∧
      ∀ j, j < C.length → g (C.getD r dflt) ≤ g (C.getD j dflt) := by
  cases C with
  | nil => exact absurd rfl hne
  | cons x xs =>
    have hx : fn x = .ok (g x) := htot x (by simp)
    have htot' : ∀ y ∈ xs, fn y = .ok (g y) := fun y hy => htot y (by simp [hy])
    obtain ⟨r, hr, hcase⟩ := argminAux_total_min fn g dflt xs htot' (g x) 1 0
    rcases hcase with ⟨req, hall⟩ | ⟨k, hk, req, hle, hall⟩
    · refine ⟨r, by simp [req], ?_, ?_⟩
      · simp only [argmin, hx]; exact hr
      · subst req
        intro j hj
        simp only [List.getD_cons_zero]
        match j with
        | 0 => simp
        | j + 1 =>
          simp only [List.getD_cons_succ]
          exact hall _ (getD_mem dflt (by simpa using hj))
    · have hrk : (x :: xs).getD r dflt = xs.getD k dflt := by
        subst req
        rw [Nat.add_comm 1 k]
        exact List.getD_cons_succ
      refine ⟨r, by simp only [List.length_cons]; omega, ?_, ?_⟩
      · simp only [argmin, hx]; exact hr
      · intro j hj
        rw [hrk]
        match j with
        | 0 => simpa using hle
        | j + 1 =>
          simp only [List.getD_cons_succ]
          exact hall _ (getD_mem dflt (by simpa using hj))

/-! ### `centroid` and `recompute` characterization -/

theorem addInto_length : ∀ (acc p : List ℚ), (addInto acc p).length = acc.length
  | acc, [] => by simp [addInto]
  | [], _ :: _ => by simp [addInto]
  | a :: acc, v :: p => by
    simp only [addInto, List.length_cons]
    rw [addInto_length acc p]

theorem addInto_getD : ∀ (acc p : List ℚ), p.length ≤ acc.length → ∀ (j : Nat),
    (addInto acc p).getD j 0 = acc.getD j 0 + p.getD j 0
  | acc, [], _, j => by simp [addInto]
  | [], v :: p, h, j => by simp at h
  | a :: acc, v :: p, h, 0 => by simp [addInto]
  | a :: acc, v :: p, h, j + 1 => by
    simp only [addInto, List.getD_cons_succ]
    exact addInto_getD acc p (by simpa using h) j

theorem foldl_addInto_getD : ∀ (pts : List Point) (acc : List ℚ),
    (∀ p ∈ pts, p.length ≤ acc.length) → ∀ (j : Nat),
    (pts.foldl addInto acc).getD j 0 =
      acc.getD j 0 + (pts.map (fun p => p.getD j 0)).sum
  | [], acc, _, j => by simp
  | p :: pts, acc, h, j => by
    simp only [List.foldl_cons, List.map_cons, List.sum_cons]
    rw [foldl_addInto_getD pts (addInto acc p)
      (fun q hq => (addInto_length acc p).symm ▸ h q (by simp [hq])) j,
      addInto_getD acc p (h p (by simp)) j]
    ring

theorem foldl_addInto_length (pts : List Point) (acc : List ℚ) :
    (pts.foldl addInto acc).length = acc.length := by
  induction pts generalizing acc with
  | nil => rfl
  | cons p pts ih => simp only [List.foldl_cons]; rw [ih, addInto_length]

theorem foldl_max_init_le : ∀ (l : List Nat) (a : Nat), a ≤ l.foldl Nat.max a
  | [], a => le_refl a
  | x :: l, a => le_trans (Nat.le_max_left a x) (foldl_max_init_le l (Nat.max a x))

theorem le_foldl_max : ∀ (l : List Nat) (a x : Nat), x ∈ l → x ≤ l.foldl Nat.max a
  | [], _, _, hx => absurd hx (by simp)
  | y :: l, a, x, hx => by
    rcases List.mem_cons.mp hx with heq | hx'
    · subst heq
      exact le_trans (Nat.le_max_right a x) (foldl_max_init_le l (Nat.max a x))
    · exact le_foldl_max l (Nat.max a y) x hx'

theorem length_le_maxLen {pts : List Point} {p : Point} (hp : p ∈ pts) :
    p.length ≤ maxLen pts :=
  le_foldl_max _ 0 _ (List.mem_map_of_mem List.length hp)

theorem foldl_max_const : ∀ (l : List Nat) (a n : Nat), (∀ x ∈ l, x = n) →
    l ≠ [] → l.foldl Nat.max a = Nat.max a n
  | [], _, _, _, hne => absurd rfl hne
  | x :: l, a, n, h, _ => by
    have hx : x = n := h x (by simp)
    subst hx
    cases l with
    | nil => rfl
    | cons y l =>
      rw [List.foldl_cons, foldl_max_const (y :: l) (Nat.max a x) x
        (fun z hz => h z (by simp [hz])) (by simp)]
      exact Nat.max_eq_left (Nat.le_max_right a x)

theorem maxLen_const {pts : List Point} {n : Nat}
    (h : ∀ p ∈ pts, p.length = n) (hne : pts ≠ []) : maxLen pts = n := by
  unfold maxLen
  rw [foldl_max_const _ 0 n ?_ ?_]
  · exact Nat.zero_max n
  · intro x hx
    obtain ⟨p, hp, rfl⟩ := List.mem_map.mp hx
    exact h p hp
  · simpa using hne

theorem centroid_length (pts : List Point) :
    (centroid pts).length = maxLen pts := by
  unfold centroid
  rw [List.length_map, foldl_addInto_length, List.length_replicate]

theorem centroid_getD {pts : List Point} {j : Nat} (hj : j < maxLen pts) :
    (centroid pts).getD j 0 = (pts.map (fun p => p.getD j 0)).sum / (pts.length : ℚ) := by
  unfold centroid
  have hlen : (pts.foldl addInto (List.replicate (maxLen pts) 0)).length = maxLen pts := by
    rw [foldl_addInto_length, List.length_replicate]
  have hj' : j < (pts.foldl addInto (List.replicate (maxLen pts) 0)).length := by omega
  rw [List.getD_eq_getElem _ _ (by simpa using hj'), List.getElem_map]
  have := foldl_addInto_getD pts (List.replicate (maxLen pts) 0)
    (fun p hp => by simpa using length_le_maxLen hp) j
  rw [List.getD_eq_getElem _ _ hj'] at this
  rw [this, List.getD_eq_getElem _ _ (by simpa using hj), List.getElem_replicate]
  ring_nf

theorem centroid_eq_specMean (pts : List Point) :
    centroid pts = specCentroidMean pts := by
  apply List.ext_getElem
  · rw [centroid_length]
    unfold specCentroidMean
    rw [List.length_map, List.length_range]
  · intro j h1 h2
    have hj : j < maxLen pts := by rwa [centroid_length] at h1
    have hL : (centroid pts).getD j 0 = (centroid pts)[j] :=
      List.getD_eq_getElem _ _ h1
    rw [← hL, centroid_getD hj]
    unfold specCentroidMean
    rw [List.getElem_map, List.getElem_range]

theorem recompute_length : ∀ (ctr : List Point) (mem : List (List Point)),
    (recompute ctr mem).length = ctr.length
  | ctr, [] => by cases ctr <;> rfl
  | [], _ :: _ => rfl
  | c :: ctr, m :: mem => by
    simp only [recompute, List.length_cons]
    rw [recompute_length ctr mem]

theorem recompute_getD : ∀ (ctr : List Point) (mem : List (List Point)) (i : Nat),
    i < ctr.length →
    (recompute ctr mem).getD i [] =
      if 0 < (mem.getD i []).length then centroid (mem.getD i [])
      else ctr.getD i []
  | ctr, [], i, hi => by cases ctr <;> simp [recompute]
  | [], _ :: _, i, hi => by simp at hi
  | c :: ctr, m :: mem, 0, hi => by simp [recompute]
  | c :: ctr, m :: mem, i + 1, hi => by
    simp only [recompute, List.getD_cons_succ]
    exact recompute_getD ctr mem i (by simp at hi; omega)

theorem recompute_dims {n : Nat} : ∀ (ctr : List Point) (mem : List (List Point)),
    (∀ c ∈ ctr, c.length = n) → (∀ m ∈ mem, ∀ p ∈ m, p.length = n) →
    ∀ c ∈ recompute ctr mem, c.length = n
  | ctr, [], hc, _ => by
    cases ctr with
    | nil => simp [recompute]
    | cons c ctr => simpa [recompute] using hc
  | [], _ :: _, hc, _ => by simp [recompute]
  | c :: ctr, m :: mem, hc, hm => by
    intro x hx
    simp only [recompute] at hx
    rcases List.mem_cons.mp hx with heq | hx'
    · subst heq
      split
      · next hpos =>
        have hne : m ≠ [] := by
          intro h; subst h; simp at hpos
        rw [centroid_length, maxLen_const (hm m (by simp)) hne]
      · exact hc c (by simp)
    · exact recompute_dims ctr mem (fun y hy => hc y (by simp [hy]))
        (fun y hy => hm y (by simp [hy])) x hx'

theorem recompute_idem (ctr : List Point) (mem : List (List Point)) :
    recompute (recompute ctr mem) mem = recompute ctr mem := by
  apply List.ext_getElem
  · rw [recompute_length, recompute_length]
  · intro i h1 h2
    have hi : i < ctr.length := by rwa [recompute_length, recompute_length] at h1
    have hi' : i < (recompute ctr mem).length := by rwa [recompute_length] at h1
    rw [← List.getD_eq_getElem _ ([] : Point) h1, ← List.getD_eq_getElem _ ([] : Point) h2,
      recompute_getD _ mem i (by rwa [recompute_length]), recompute_getD ctr mem i hi]
    split
    · rfl
    · rfl

/-! ### Cost arithmetic -/

theorem sum_map_add {α : Type} (l : List α) (f g : α → ℚ) :
    (l.map (fun x => f x + g x)).sum = (l.map f).sum + (l.map g).sum := by
  induction l with
  | nil => simp
  | cons x l ih => simp only [List.map_cons, List.sum_cons, ih]; ring

theorem list_sum_swap {α β : Type} (l : List α) (r : List β) (f : α → β → ℚ) :
    (l.map (fun a => (r.map (f a)).sum)).sum =
      (r.map (fun b => (l.map (fun a => f a b)).sum)).sum := by
  induction l with
  | nil => simp
  | cons a l ih =>
    simp only [List.map_cons, List.sum_cons, ih, ← sum_map_add]

theorem sum_sq_shift : ∀ (xs : List ℚ) (a c : ℚ),
    (xs.map (fun x => (x - c) ^ 2)).sum =
      (xs.map (fun x => (x - a) ^ 2)).sum +
      2 * (a - c) * (xs.sum - (xs.length : ℚ) * a) +
      (xs.length : ℚ) * (a - c) ^ 2
  | [], a, c => by simp
  | x :: xs, a, c => by
    simp only [List.map_cons, List.sum_cons, List.length_cons]
    rw [sum_sq_shift xs a c]
    push_cast
    ring

theorem sq_dev_mean_le (xs : List ℚ) (c : ℚ) (hne : xs ≠ []) :
    (xs.map (fun x => (x - xs.sum / (xs.length : ℚ)) ^ 2)).sum ≤
      (xs.map (fun x => (x - c) ^ 2)).sum := by
  have hN : (0 : ℚ) < (xs.length : ℚ) := by
    have : 0 < xs.length := List.length_pos.mpr hne
    exact_mod_cast this
  set μ : ℚ := xs.sum / (xs.length : ℚ) with hμ
  have hsum : xs.sum - (xs.length : ℚ) * μ = 0 := by
    rw [hμ, mul_div_cancel₀ _ (ne_of_gt hN)]
    ring
  have hid := sum_sq_shift xs μ c
  rw [hsum] at hid
  have hnn : 0 ≤ (xs.length : ℚ) * (μ - c) ^ 2 := by positivity
  linarith

theorem sqDist_nonneg (p q : Point) : 0 ≤ sqDist p q := by
  apply List.sum_nonneg
  intro x hx
  obtain ⟨y, _, rfl⟩ := List.mem_map.mp hx
  positivity

theorem sqDist_eq_rangeSum : ∀ (n : Nat) (p q : Point), p.length = n →
    q.length = n →
    sqDist p q = ((List.range n).map
      (fun j => (p.getD j 0 - q.getD j 0) ^ 2)).sum
  | 0, p, q, hp, hq => by
    rw [List.length_eq_zero.mp hp, List.length_eq_zero.mp hq]
    simp [sqDist]
  | n + 1, [], q, hp, hq => by simp at hp
  | n + 1, p, [], hp, hq => by simp at hq
  | n + 1, x :: p, y :: q, hp, hq => by
    simp only [sqDist, List.zip_cons_cons, List.map_cons, List.sum_cons]
    rw [List.range_succ_eq_map]
    simp only [List.map_cons, List.sum_cons, List.getD_cons_zero, List.map_map]
    have hrec := sqDist_eq_rangeSum n p q (by simpa using hp) (by simpa using hq)
    simp only [sqDist] at hrec
    rw [hrec]
    have hcomp : List.map ((fun j => ((x :: p).getD j 0 - (y :: q).getD j 0) ^ 2)
          ∘ Nat.succ) (List.range n)
        = List.map (fun j => (p.getD j 0 - q.getD j 0) ^ 2) (List.range n) := by
      apply List.map_congr_left
      intro j _
      simp [Function.comp]
    rw [hcomp]

theorem euclidean_distance_ok {p q : Point} (h : p.length = q.length) :
    euclidean_distance p q = .ok (sqDist p q) := by
  unfold euclidean_distance
  rw [if_pos h]

theorem clusterCost_set (ctr : List Point) :
    ∀ (mem : List (List Point)) (i : Nat) (m : List Point), i < mem.length →
    i < ctr.length →
    cost ctr (mem.set i m) =
      cost ctr mem - clusterCost (ctr.getD i []) (mem.getD i [])
        + clusterCost (ctr.getD i []) m := by
  induction ctr with
  | nil => intro mem i m _ hi; simp at hi
  | cons c ctr ih =>
    intro mem i m hmem hi
    cases mem with
    | nil => simp at hmem
    | cons m0 mem =>
      cases i with
      | zero =>
        simp only [List.set_cons_zero, cost, List.zip_cons_cons, List.map_cons,
          List.sum_cons, List.getD_cons_zero]
        ring
      | succ i =>
        simp only [List.set_cons_succ, cost, List.zip_cons_cons, List.map_cons,
          List.sum_cons, List.getD_cons_succ]
        have := ih mem i m (by simpa using hmem) (by simpa using hi)
        simp only [cost] at this
        rw [this]
        ring

theorem clusterCost_centroid_le {n : Nat} (pts : List Point) (c : Point)
    (hne : pts ≠ []) (hdim : ∀ p ∈ pts, p.length = n) (hc : c.length = n) :
    clusterCost (centroid pts) pts ≤ clusterCost c pts := by
  have hmax : maxLen pts = n := maxLen_const hdim hne
  have hcen_len : (centroid pts).length = n := by rw [centroid_length, hmax]
  have hrw : ∀ (q : Point), q.length = n →
      clusterCost q pts =
        ((List.range n).map (fun j =>
          (pts.map (fun p => (p.getD j 0 - q.getD j 0) ^ 2)).sum)).sum := by
    intro q hq
    unfold clusterCost
    rw [List.map_congr_left (fun p hp => sqDist_eq_rangeSum n p q (hdim p hp) hq)]
    exact list_sum_swap pts (List.range n)
      (fun a b => (a.getD b 0 - q.getD b 0) ^ 2)
  rw [hrw (centroid pts) hcen_len, hrw c hc]
  apply List.sum_le_sum
  intro j hj
  have hjn : j < n := List.mem_range.mp hj
  have hμ : (centroid pts).getD j 0 =
      (pts.map (fun p => p.getD j 0)).sum / (pts.length : ℚ) :=
    centroid_getD (by rw [hmax]; exact hjn)
  rw [hμ]
  have hxs_ne : pts.map (fun p => p.getD j 0) ≠ [] := by
    simpa using hne
  have h2 := sq_dev_mean_le (pts.map (fun p => p.getD j 0)) (c.getD j 0) hxs_ne
  rw [List.length_map] at h2
  simpa [List.map_map, Function.comp] using h2

theorem recompute_cost_le {n : Nat} : ∀ (ctr : List Point) (mem : List (List Point)),
    (∀ c ∈ ctr, c.length = n) → (∀ m ∈ mem, ∀ p ∈ m, p.length = n) →
    cost (recompute ctr mem) mem ≤ cost ctr mem
  | ctr, [], _, _ => by cases ctr <;> simp [recompute, cost]
  | [], _ :: _, _, _ => by simp [recompute, cost]
  | c :: ctr, m :: mem, hc, hm => by
    simp only [recompute, cost, List.zip_cons_cons, List.map_cons, List.sum_cons]
    have ih := recompute_cost_le ctr mem (fun y hy => hc y (by simp [hy]))
      (fun y hy => hm y (by simp [hy]))
    simp only [cost] at ih
    apply add_le_add ?_ ih
    split
    · next hpos =>
      exact clusterCost_centroid_le m c
        (by intro h; subst h; simp at hpos) (hm m (by simp)) (hc c (by simp))
    · exact le_refl _

/-! ### Reassign phase: cost and invariant preservation (default metric) -/

theorem clusterCost_setDiscard (c : Point) (s : List Point) (x : Point)
    (hx : x ∈ s) :
    clusterCost c (setDiscard s x) = clusterCost c s - sqDist x c := by
  unfold clusterCost
  exact setDiscard_sum_map (fun p => sqDist p c) s x hx

theorem clusterCost_setAdd_le (c : Point) (s : List Point) (x : Point) :
    clusterCost c (setAdd s x) ≤ clusterCost c s + sqDist x c := by
  unfold clusterCost setAdd
  split
  · have := sqDist_nonneg x c
    linarith
  · simp

theorem reassignPoint_spec {n : Nat} (kctr : List Point) (cloc : Nat)
    (m : List (List Point)) (mv : Nat) (pt : Point)
    (hctr : ∀ c ∈ kctr, c.length = n)
    (hLen : m.length = kctr.length)
    (hinv : memInv n m)
    (hpt : pt.length = n)
    (hmem : pt ∈ m.getD cloc [])
    (hcloc : cloc < m.length) :
    ∃ m' mv',
      reassignPoint euclidean_distance kctr cloc m mv pt = (none, m', mv') ∧
      m'.length = m.length ∧ memInv n m' ∧
      cost kctr m' ≤ cost kctr m ∧
      (∀ q ∈ m.getD cloc [], q ≠ pt → q ∈ m'.getD cloc []) := by
  have hne : kctr ≠ [] := by
    intro h
    subst h
    simp only [List.length_nil] at hLen
    omega
  have htot : ∀ c ∈ kctr, euclidean_distance pt c = .ok (sqDist pt c) :=
    fun c hc => euclidean_distance_ok (by rw [hpt, hctr c hc])
  obtain ⟨r, hrlt, hok, hmin⟩ :=
    argmin_total_min (fun c => euclidean_distance pt c) (fun c => sqDist pt c)
      [] kctr hne htot
  by_cases hrc : r = cloc
  · refine ⟨m, mv, ?_, rfl, hinv, le_refl _, fun q hq _ => hq⟩
    simp [reassignPoint, hok, hrc]
  · set base := (m.set cloc (setDiscard (m.getD cloc []) pt)).getD r [] with hbase
    set m1 := m.set cloc (setDiscard (m.getD cloc []) pt) with hm1
    set m2 := m1.set r (setAdd base pt) with hm2
    have hr_m : r < m.length := by omega
    have hclocK : cloc < kctr.length := by omega
    have hbase_eq : base = m.getD r [] := by
      rw [hbase, getD_set_ne _ _ _ _ _ (fun h => hrc h.symm)]
    have hm1_len : m1.length = m.length := by rw [hm1, List.length_set]
    have hm2_len : m2.length = m.length := by rw [hm2, List.length_set, hm1_len]
    have hm1_cloc : m1.getD cloc [] = setDiscard (m.getD cloc []) pt :=
      getD_set_self _ _ _ _ hcloc
    have hm2_cloc : m2.getD cloc [] = setDiscard (m.getD cloc []) pt := by
      rw [hm2, getD_set_ne _ _ _ _ _ hrc, hm1_cloc]
    refine ⟨m2, mv + 1, ?_, hm2_len, ?_, ?_, ?_⟩
    · simp only [reassignPoint, hok]
      rw [if_pos hrc]
    · constructor
      · intro s hs
        rcases List.mem_or_eq_of_mem_set hs with hs1 | hs2
        · rcases List.mem_or_eq_of_mem_set hs1 with hs3 | hs4
          · exact hinv.1 s hs3
          · subst hs4
            exact setDiscard_nodup _ (hinv.1 _ (getD_mem [] hcloc)) pt
        · subst hs2
          exact setAdd_nodup (hbase_eq ▸ hinv.1 _ (getD_mem [] hr_m)) pt
      · intro s hs p hp
        rcases List.mem_or_eq_of_mem_set hs with hs1 | hs2
        · rcases List.mem_or_eq_of_mem_set hs1 with hs3 | hs4
          · exact hinv.2 s hs3 p hp
          · subst hs4
            exact hinv.2 _ (getD_mem [] hcloc) p (mem_setDiscard _ _ _ hp)
        · subst hs2
          rcases mem_setAdd.mp hp with hp1 | hp2
          · exact hinv.2 _ (hbase_eq ▸ getD_mem [] hr_m) p (hbase_eq ▸ hp1)
          · subst hp2; exact hpt
    · have c1 : cost kctr m1 =
          cost kctr m - clusterCost (kctr.getD cloc []) (m.getD cloc [])
            + clusterCost (kctr.getD cloc []) (setDiscard (m.getD cloc []) pt) :=
        clusterCost_set kctr m cloc _ hcloc hclocK
      have c1e : clusterCost (kctr.getD cloc []) (setDiscard (m.getD cloc []) pt) =
          clusterCost (kctr.getD cloc []) (m.getD cloc [])
            - sqDist pt (kctr.getD cloc []) :=
        clusterCost_setDiscard _ _ _ hmem
      have c2 : cost kctr m2 =
          cost kctr m1 - clusterCost (kctr.getD r []) (m1.getD r [])
            + clusterCost (kctr.getD r []) (setAdd base pt) :=
        clusterCost_set kctr m1 r _ (by omega) hrlt
      have hm1_r : m1.getD r [] = base := hbase.symm
      have c2a : clusterCost (kctr.getD r []) (setAdd base pt) ≤
          clusterCost (kctr.getD r []) base + sqDist pt (kctr.getD r []) :=
        clusterCost_setAdd_le _ _ _
      have hminr : sqDist pt (kctr.getD r []) ≤ sqDist pt (kctr.getD cloc []) :=
        hmin cloc hclocK
      rw [c2, hm1_r, c1, c1e]
      linarith
    · intro q hq hqpt
      rw [hm2_cloc]
      exact mem_setDiscard_of_ne _ _ _ hqpt hq

theorem reassignCluster_spec {n : Nat} (kctr : List Point) (cloc : Nat)
    (hctr : ∀ c ∈ kctr, c.length = n) :
    ∀ (pts : List Point) (m : List (List Point)) (mv : Nat),
    m.length = kctr.length → memInv n m →
    (∀ q ∈ pts, q ∈ m.getD cloc []) → pts.Nodup → cloc < m.length →
    ∃ m' mv',
      reassignCluster euclidean_distance kctr cloc pts m mv = (none, m', mv') ∧
      m'.length = m.length ∧ memInv n m' ∧ cost kctr m' ≤ cost kctr m
  | [], m, mv, _, hinv, _, _, _ => ⟨m, mv, rfl, rfl, hinv, le_refl _⟩
  | pt :: pts, m, mv, hLen, hinv, hsub, hnd, hcloc => by
    have hmem_pt : pt ∈ m.getD cloc [] := hsub pt (by simp)
    have hpt : pt.length = n :=
      hinv.2 _ (getD_mem [] hcloc) pt hmem_pt
    obtain ⟨m1, mv1, heq, hlen1, hinv1, hcost1, hkeep⟩ :=
      reassignPoint_spec kctr cloc m mv pt hctr hLen hinv hpt hmem_pt hcloc
    rw [List.nodup_cons] at hnd
    obtain ⟨m2, mv2, heq2, hlen2, hinv2, hcost2⟩ :=
      reassignCluster_spec kctr cloc hctr pts m1 mv1 (by omega) hinv1
        (fun q hq => hkeep q (hsub q (by simp [hq]))
          (fun h => hnd.1 (h ▸ hq)))
        hnd.2 (by omega)
    refine ⟨m2, mv2, ?_, by omega, hinv2, le_trans hcost2 hcost1⟩
    rw [reassignCluster, heq]
    exact heq2

theorem foldl_reassign_spec {n : Nat} (kctr : List Point)
    (hctr : ∀ c ∈ kctr, c.length = n) :
    ∀ (ixs : List Nat) (m : List (List Point)) (mv : Nat),
    m.length = kctr.length → memInv n m →
    ∃ m' mv',
      ixs.foldl (reassignStep euclidean_distance kctr) (none, m, mv) =
        (none, m', mv') ∧
      m'.length = m.length ∧ memInv n m' ∧ cost kctr m' ≤ cost kctr m
  | [], m, mv, _, hinv => ⟨m, mv, rfl, rfl, hinv, le_refl _⟩
  | i :: ixs, m, mv, hLen, hinv => by
    by_cases hi : i < m.length
    · obtain ⟨m1, mv1, heq, hlen1, hinv1, hcost1⟩ :=
        reassignCluster_spec kctr i hctr (m.getD i []) m mv hLen hinv
          (fun q hq => hq) (hinv.1 _ (getD_mem [] hi)) hi
      obtain ⟨m2, mv2, heq2, hlen2, hinv2, hcost2⟩ :=
        foldl_reassign_spec kctr hctr ixs m1 mv1 (by omega) hinv1
      refine ⟨m2, mv2, ?_, by omega, hinv2, le_trans hcost2 hcost1⟩
      rw [List.foldl_cons]
      simp only [reassignStep]
      rw [heq]
      exact heq2
    · have hnil : m.getD i [] = [] :=
        List.getD_eq_default _ _ (by omega)
      obtain ⟨m2, mv2, heq2, hlen2, hinv2, hcost2⟩ :=
        foldl_reassign_spec kctr hctr ixs m mv hLen hinv
      refine ⟨m2, mv2, ?_, hlen2, hinv2, hcost2⟩
      rw [List.foldl_cons]
      simp only [reassignStep, hnil, reassignCluster]
      exact heq2

theorem reassignAll_spec {n : Nat} (kctr : List Point)
    (kmem : List (List Point)) (hctr : ∀ c ∈ kctr, c.length = n)
    (hLen : kmem.length = kctr.length) (hinv : memInv n kmem) :
    ∃ m' mv',
      reassignAll euclidean_distance kctr kmem = (none, m', mv') ∧
      m'.length = kmem.length ∧ memInv n m' ∧ cost kctr m' ≤ cost kctr kmem :=
  foldl_reassign_spec kctr hctr (List.range kmem.length) kmem 0 hLen hinv

theorem step_spec {n : Nat} (s : KMeans)
    (hLen : s.kmem.length = s.kctr.length)
    (hctr : ∀ c ∈ s.kctr, c.length = n) (hinv : memInv n s.kmem) :
    (step euclidean_distance s).1 = none ∧
      stateCost (step euclidean_distance s).2.1 ≤ stateCost s := by
  have hctr1 : ∀ c ∈ recompute s.kctr s.kmem, c.length = n :=
    recompute_dims s.kctr s.kmem hctr hinv.2
  have hLen1 : s.kmem.length = (recompute s.kctr s.kmem).length := by
    rw [recompute_length]; exact hLen
  obtain ⟨m', mv', heq, hlen', hinv', hcost'⟩ :=
    reassignAll_spec (recompute s.kctr s.kmem) s.kmem hctr1 hLen1 hinv
  have hphase1 : cost (recompute s.kctr s.kmem) s.kmem ≤ cost s.kctr s.kmem :=
    recompute_cost_le s.kctr s.kmem hctr hinv.2
  constructor
  · simp only [step, heq]
  · simp only [step, heq, stateCost]
    exact le_trans hcost' hphase1

/-! ### Length and move-count lemmas (arbitrary metric) -/

theorem reassignPoint_length (d : DistFn) (kctr : List Point) (cloc : Nat)
    (m : List (List Point)) (mv : Nat) (pt : Point) :
    (reassignPoint d kctr cloc m mv pt).2.1.length = m.length := by
  unfold reassignPoint
  cases argmin (fun c => d pt c) kctr with
  | error e => rfl
  | ok ploc =>
    by_cases h : ploc ≠ cloc
    · simp only [if_pos h, List.length_set]
    · simp only [if_neg h]

theorem reassignPoint_moves (d : DistFn) (kctr : List Point) (cloc : Nat)
    (m : List (List Point)) (mv : Nat) (pt : Point) :
    mv ≤ (reassignPoint d kctr cloc m mv pt).2.2 ∧
    ((reassignPoint d kctr cloc m mv pt).2.2 = mv →
      (reassignPoint d kctr cloc m mv pt).2.1 = m) := by
  unfold reassignPoint
  cases argmin (fun c => d pt c) kctr with
  | error e => exact ⟨le_refl _, fun _ => rfl⟩
  | ok ploc =>
    dsimp only
    by_cases h : ploc ≠ cloc
    · rw [if_pos h]
      dsimp only
      refine ⟨by omega, fun hc => ?_⟩
      exact absurd hc (by omega)
    · rw [if_neg h]
      exact ⟨le_refl _, fun _ => rfl⟩

theorem reassignCluster_length (d : DistFn) (kctr : List Point) (cloc : Nat) :
    ∀ (pts : List Point) (m : List (List Point)) (mv : Nat),
    (reassignCluster d kctr cloc pts m mv).2.1.length = m.length
  | [], m, mv => rfl
  | pt :: pts, m, mv => by
    rw [reassignCluster]
    rcases heq : reassignPoint d kctr cloc m mv pt with ⟨e, m1, mv1⟩
    have hl : m1.length = m.length := by
      have := reassignPoint_length d kctr cloc m mv pt
      rw [heq] at this
      exact this
    cases e with
    | some e => exact hl
    | none =>
      simp only
      rw [reassignCluster_length d kctr cloc pts m1 mv1, hl]

theorem reassignCluster_moves (d : DistFn) (kctr : List Point) (cloc : Nat) :
    ∀ (pts : List Point) (m : List (List Point)) (mv : Nat),
    mv ≤ (reassignCluster d kctr cloc pts m mv).2.2 ∧
    ((reassignCluster d kctr cloc pts m mv).2.2 = mv →
      (reassignCluster d kctr cloc pts m mv).2.1 = m)
  | [], m, mv => ⟨le_refl _, fun _ => rfl⟩
  | pt :: pts, m, mv => by
    rw [reassignCluster]
    rcases heq : reassignPoint d kctr cloc m mv pt with ⟨e, m1, mv1⟩
    have hp := reassignPoint_moves d kctr cloc m mv pt
    rw [heq] at hp
    dsimp only at hp
    cases e with
    | some e => exact ⟨hp.1, fun h => hp.2 h⟩
    | none =>
      simp only
      have hc := reassignCluster_moves d kctr cloc pts m1 mv1
      refine ⟨le_trans hp.1 hc.1, fun h => ?_⟩
      have hmv1 : mv1 = mv := by omega
      have h1 : (reassignCluster d kctr cloc pts m1 mv1).2.1 = m1 :=
        hc.2 (by omega)
      rw [h1, hp.2 hmv1]

theorem foldl_reassignStep_error (d : DistFn) (kctr : List Point) :
    ∀ (ixs : List Nat) (e : KError) (m : List (List Point)) (mv : Nat),
    ixs.foldl (reassignStep d kctr) (some e, m, mv) = (some e, m, mv)
  | [], _, _, _ => rfl
  | _ :: ixs, e, m, mv =>
    foldl_reassignStep_error d kctr ixs e m mv

theorem foldl_reassignStep_length (d : DistFn) (kctr : List Point) :
    ∀ (ixs : List Nat) (m : List (List Point)) (mv : Nat),
    (ixs.foldl (reassignStep d kctr) (none, m, mv)).2.1.length = m.length
  | [], _, _ => rfl
  | i :: ixs, m, mv => by
    rw [List.foldl_cons]
    simp only [reassignStep]
    rcases heq : reassignCluster d kctr i (m.getD i []) m mv with ⟨e, m1, mv1⟩
    have hl : m1.length = m.length := by
      have := reassignCluster_length d kctr i (m.getD i []) m mv
      rw [heq] at this
      exact this
    cases e with
    | some e => rw [foldl_reassignStep_error d kctr ixs e m1 mv1]; exact hl
    | none => rw [foldl_reassignStep_length d kctr ixs m1 mv1, hl]

theorem foldl_reassignStep_moves (d : DistFn) (kctr : List Point) :
    ∀ (ixs : List Nat) (m : List (List Point)) (mv : Nat),
    mv ≤ (ixs.foldl (reassignStep d kctr) (none, m, mv)).2.2 ∧
    ((ixs.foldl (reassignStep d kctr) (none, m, mv)).2.2 = mv →
      (ixs.foldl (reassignStep d kctr) (none, m, mv)).2.1 = m)
  | [], _, _ => ⟨le_refl _, fun _ => rfl⟩
  | i :: ixs, m, mv => by
    rw [List.foldl_cons]
    simp only [reassignStep]
    rcases heq : reassignCluster d kctr i (m.getD i []) m mv with ⟨e, m1, mv1⟩
    have hc := reassignCluster_moves d kctr i (m.getD i []) m mv
    rw [heq] at hc
    dsimp only at hc
    cases e with
    | some e =>
      rw [foldl_reassignStep_error d kctr ixs e m1 mv1]
      exact ⟨hc.1, fun h => hc.2 h⟩
    | none =>
      have hf := foldl_reassignStep_moves d kctr ixs m1 mv1
      refine ⟨le_trans hc.1 hf.1, fun h => ?_⟩
      have h1 : (ixs.foldl (reassignStep d kctr) (none, m1, mv1)).2.1 = m1 :=
        hf.2 (by omega)
      rw [h1, hc.2 (by omega)]

theorem reassignAll_length (d : DistFn) (kctr : List Point)
    (kmem : List (List Point)) :
    (reassignAll d kctr kmem).2.1.length = kmem.length :=
  foldl_reassignStep_length d kctr (List.range kmem.length) kmem 0

theorem reassignAll_moves_zero (d : DistFn) (kctr : List Point)
    (kmem : List (List Point))
    (h : (reassignAll d kctr kmem).2.2 = 0) :
    (reassignAll d kctr kmem).2.1 = kmem :=
  (foldl_reassignStep_moves d kctr (List.range kmem.length) kmem 0).2 h

theorem assignLoop_length (d : DistFn) (kctr : List Point) :
    ∀ (pts : List Point) (kmem : List (List Point)),
    (assignLoop d kctr pts kmem).2.length = kmem.length
  | [], _ => rfl
  | pt :: pts, kmem => by
    rw [assignLoop]
    cases argmin (fun c => d pt c) kctr with
    | error e => rfl
    | ok ploc =>
      simp only
      rw [assignLoop_length d kctr pts _, List.length_set]

theorem step_kctr_length (d : DistFn) (s : KMeans) :
    (step d s).2.1.kctr.length = s.kctr.length := by
  simp only [step]
  rw [recompute_length]

theorem step_kmem_length (d : DistFn) (s : KMeans) :
    (step d s).2.1.kmem.length = s.kmem.length := by
  simp only [step]
  exact reassignAll_length d _ s.kmem

theorem start_kctr (d : DistFn) (s : KMeans) : (start d s).2.kctr = s.kctr := by
  unfold start
  split
  · rfl
  · rfl

theorem start_data (d : DistFn) (s : KMeans) : (start d s).2.data = s.data := by
  unfold start
  split
  · rfl
  · rfl

theorem start_kmem_length (d : DistFn) (s : KMeans) :
    (start d s).2.kmem.length = s.kmem.length := by
  unfold start
  split
  · rfl
  · simp only [reset_clusters]
    rw [assignLoop_length, List.length_map]

theorem runLoopN_lengths (d : DistFn) :
    ∀ (n : Nat) (s : KMeans),
    (runLoopN d n s).2.1.kctr.length = s.kctr.length ∧
    (runLoopN d n s).2.1.kmem.length = s.kmem.length
  | n, s => by
    rw [runLoopN]
    rcases heq : step d s with ⟨e, s1, mv⟩
    have h1 : s1.kctr.length = s.kctr.length := by
      have := step_kctr_length d s; rw [heq] at this; exact this
    have h2 : s1.kmem.length = s.kmem.length := by
      have := step_kmem_length d s; rw [heq] at this; exact this
    cases e with
    | some e => exact ⟨h1, h2⟩
    | none =>
      simp only
      by_cases hmv : mv = 0
      · rw [if_pos hmv]
        exact ⟨h1, h2⟩
      · rw [if_neg hmv]
        cases n with
        | zero => exact ⟨h1, h2⟩
        | succ n' =>
          have := runLoopN_lengths d n' s1
          simp only
          omega

/-! ### Fixed points of `step` -/

theorem step_fixed_point (d : DistFn) (s s1 : KMeans)
    (h : step d s = (none, s1, 0)) : step d s1 = (none, s1, 0) := by
  rcases hr : reassignAll d (recompute s.kctr s.kmem) s.kmem with ⟨e, m', mv⟩
  have hstep : step d s =
      (e, { s with kctr := recompute s.kctr s.kmem, kmem := m' }, mv) := by
    simp only [step, hr]
  rw [hstep] at h
  simp only [Prod.mk.injEq] at h
  obtain ⟨he, hs1, hmv⟩ := h
  subst he
  subst hmv
  have hz : (reassignAll d (recompute s.kctr s.kmem) s.kmem).2.2 = 0 := by
    rw [hr]
  have hm' : m' = s.kmem := by
    have h2 := reassignAll_moves_zero d (recompute s.kctr s.kmem) s.kmem hz
    rw [hr] at h2
    exact h2
  subst hm'
  subst hs1
  simp only [step, recompute_idem, hr]

/-! ### `run` call counting -/

theorem runLoopN_zero_calls (d : DistFn) (s : KMeans) :
    (runLoopN d 0 s).2.2 = 1 := by
  rw [runLoopN]
  rcases step d s with ⟨e, s', mv⟩
  cases e with
  | some e => rfl
  | none =>
    dsimp only
    by_cases hmv : mv = 0
    · rw [if_pos hmv]
    · rw [if_neg hmv]

theorem runLoopN_calls_le (d : DistFn) (n : Nat) :
    ∀ (s : KMeans), (runLoopN d n s).2.2 ≤ n + 1 := by
  induction n with
  | zero =>
    intro s
    rw [runLoopN_zero_calls]
  | succ n' ih =>
    intro s
    rw [runLoopN]
    rcases step d s with ⟨e, s', mv⟩
    cases e with
    | some e => simp
    | none =>
      dsimp only
      by_cases hmv : mv = 0
      · rw [if_pos hmv]
        simp
      · rw [if_neg hmv]
        dsimp only
        have := ih s'
        omega

theorem run_zero_calls (d : DistFn) (s : KMeans)
    (h : (start d s).1 = none) : (run d s 0).2.2 = 1 := by
  unfold run
  rcases hs : start d s with ⟨e, s'⟩
  rw [hs] at h
  dsimp only at h
  subst h
  exact runLoopN_zero_calls d s'

theorem run_calls_le (d : DistFn) (s : KMeans) (mx : Nat) :
    (run d s mx).2.2 ≤ mx + 1 := by
  unfold run
  rcases hs : start d s with ⟨e, s'⟩
  cases e with
  | some e => simp
  | none => exact runLoopN_calls_le d mx s'

theorem run_lengths (d : DistFn) (s : KMeans) (mx : Nat) :
    (run d s mx).2.1.kctr.length = s.kctr.length ∧
    (run d s mx).2.1.kmem.length = s.kmem.length := by
  unfold run
  rcases hs : start d s with ⟨e, s'⟩
  have h1 : s'.kctr = s.kctr := by
    have := start_kctr d s; rw [hs] at this; exact this
  have h2 : s'.kmem.length = s.kmem.length := by
    have := start_kmem_length d s; rw [hs] at this; exact this
  cases e with
  | some e => exact ⟨by rw [h1], h2⟩
  | none =>
    dsimp only
    obtain ⟨hk, hm⟩ := runLoopN_lengths d mx s'
    exact ⟨by rw [hk, h1], by rw [hm, h2]⟩

/-! ### `start` partition characterization -/

theorem assignLoop_char (d : DistFn) (kctr : List Point) :
    ∀ (pts : List Point) (kmem : List (List Point)),
    (∀ pt ∈ pts, ∃ i, argmin (fun c => d pt c) kctr = .ok i) →
    kctr.length ≤ kmem.length →
    (assignLoop d kctr pts kmem).1 = none ∧
    ∀ (q : Point) (i : Nat), i < kmem.length →
      (q ∈ (assignLoop d kctr pts kmem).2.getD i [] ↔
        q ∈ kmem.getD i [] ∨
          (q ∈ pts ∧ argmin (fun c => d q c) kctr = .ok i))
  | [], kmem, _, _ => ⟨rfl, by simp [assignLoop]⟩
  | pt :: pts, kmem, htot, hle => by
    obtain ⟨ploc, hok⟩ := htot pt (by simp)
    have hlt : ploc < kctr.length := argmin_ok_lt _ _ _ hok
    have hlt' : ploc < kmem.length := lt_of_lt_of_le hlt hle
    have hstep : assignLoop d kctr (pt :: pts) kmem =
        assignLoop d kctr pts (kmem.set ploc (setAdd (kmem.getD ploc []) pt)) := by
      rw [assignLoop, hok]
    set kmem1 := kmem.set ploc (setAdd (kmem.getD ploc []) pt) with hkmem1
    have hlen1 : kmem1.length = kmem.length := by
      rw [hkmem1, List.length_set]
    obtain ⟨he, hchar⟩ := assignLoop_char d kctr pts kmem1
      (fun q hq => htot q (by simp [hq])) (by omega)
    rw [hstep]
    refine ⟨he, ?_⟩
    intro q i hi
    rw [hchar q i (by omega)]
    constructor
    · rintro (hq | ⟨hq1, hq2⟩)
      · by_cases hip : i = ploc
        · subst hip
          rw [hkmem1, getD_set_self _ _ _ _ hlt'] at hq
          rcases mem_setAdd.mp hq with h1 | h2
          · exact Or.inl h1
          · subst h2
            exact Or.inr ⟨by simp, hok⟩
        · rw [hkmem1, getD_set_ne _ _ _ _ _ (fun hh => hip hh.symm)] at hq
          exact Or.inl hq
      · exact Or.inr ⟨by simp [hq1], hq2⟩
    · rintro (hq | ⟨hq1, hq2⟩)
      · left
        by_cases hip : i = ploc
        · subst hip
          rw [hkmem1, getD_set_self _ _ _ _ hlt']
          exact mem_setAdd.mpr (Or.inl hq)
        · rw [hkmem1, getD_set_ne _ _ _ _ _ (fun hh => hip hh.symm)]
          exact hq
      · rcases List.mem_cons.mp hq1 with heq | hq1'
        · subst heq
          have hip : i = ploc := by
            rw [hq2] at hok
            exact Except.ok.inj hok
          subst hip
          left
          rw [hkmem1, getD_set_self _ _ _ _ hlt']
          exact mem_setAdd.mpr (Or.inr rfl)
        · exact Or.inr ⟨hq1', hq2⟩

theorem map_const_nil_getD (l : List (List Point)) (i : Nat) :
    (l.map (fun _ => ([] : List Point))).getD i [] = [] := by
  by_cases hi : i < l.length
  · rw [List.getD_eq_getElem _ _ (by simpa using hi), List.getElem_map]
  · exact List.getD_eq_default _ _ (by simpa using hi)

theorem start_spec {n : Nat} (s : KMeans)
    (hne : s.kctr ≠ [])
    (hle : s.kctr.length ≤ s.kmem.length)
    (hdata : ∀ p ∈ s.data, p.length = n)
    (hctr : ∀ c ∈ s.kctr, c.length = n) :
    (start euclidean_distance s).1 = none ∧
    (∀ q : Point, (∃ i, i < (start euclidean_distance s).2.kmem.length ∧
        q ∈ (start euclidean_distance s).2.kmem.getD i []) ↔ q ∈ s.data) ∧
    (∀ i j, i < j → j < (start euclidean_distance s).2.kmem.length →
      ∀ q : Point, q ∈ (start euclidean_distance s).2.kmem.getD i [] →
        q ∉ (start euclidean_distance s).2.kmem.getD j []) := by
  have hguard : ¬(s.kctr.length = 0) := by
    intro h
    exact hne (List.length_eq_zero.mp h)
  have htot : ∀ pt ∈ s.data, ∃ i, argmin (fun c => euclidean_distance pt c) s.kctr = .ok i := by
    intro pt hpt
    obtain ⟨r, _, hok, _⟩ := argmin_total_min
      (fun c => euclidean_distance pt c) (fun c => sqDist pt c) [] s.kctr hne
      (fun c hc => euclidean_distance_ok (by rw [hdata pt hpt, hctr c hc]))
    exact ⟨r, hok⟩
  have hstart : start euclidean_distance s =
      ((assignLoop euclidean_distance s.kctr s.data
          (s.kmem.map (fun _ => []))).1,
        { s with kmem := (assignLoop euclidean_distance s.kctr s.data
          (s.kmem.map (fun _ => []))).2 }) := by
    simp only [start, if_neg hguard, reset_clusters]
  have hle0 : s.kctr.length ≤ (s.kmem.map (fun _ => ([] : List Point))).length := by
    rw [List.length_map]
    exact hle
  obtain ⟨he, hchar⟩ := assignLoop_char euclidean_distance s.kctr s.data
    (s.kmem.map (fun _ => [])) htot hle0
  have hmlen : (start euclidean_distance s).2.kmem.length = s.kmem.length := by
    rw [hstart]
    dsimp only
    rw [assignLoop_length, List.length_map]
  have hmem : ∀ (q : Point) (i : Nat), i < s.kmem.length →
      (q ∈ (start euclidean_distance s).2.kmem.getD i [] ↔
        q ∈ s.data ∧ argmin (fun c => euclidean_distance q c) s.kctr = .ok i) := by
    intro q i hi
    rw [hstart]
    dsimp only
    rw [hchar q i (by rwa [List.length_map]), map_const_nil_getD]
    simp
  refine ⟨?_, ?_, ?_⟩
  · rw [hstart]
    dsimp only
    exact he
  · intro q
    rw [hmlen]
    constructor
    · rintro ⟨i, hi, hq⟩
      exact ((hmem q i hi).mp hq).1
    · intro hq
      obtain ⟨r, hok⟩ := htot q hq
      have hrlt : r < s.kctr.length := argmin_ok_lt _ _ _ hok
      exact ⟨r, by omega, (hmem q r (by omega)).mpr ⟨hq, hok⟩⟩
  · intro i j hij hj q hqi hqj
    rw [hmlen] at hj
    have h1 := ((hmem q i (by omega)).mp hqi).2
    have h2 := ((hmem q j (by omega)).mp hqj).2
    rw [h1] at h2
    have : i = j := Except.ok.inj h2
    omega

/-! ### Concrete example states -/

/-- One-dimensional sample {0, 2, 3, 10} with seed centroids 0 and 3; the
first two `step()` calls each move one point. -/
def exC12 : KMeans :=
  add_centroid (add_centroid
    (add_data initState [.pt [0], .pt [2], .pt [3], .pt [10]])
    (.pt [0])) (.pt [3])

/-- One centroid, two data points of different dimensionality. -/
def cexC3state : KMeans :=
  add_data (add_centroid initState (.pt [1])) [.pt [1], .pt [1, 2]]

/-- One centroid added from the bare scalar 1. -/
def cexC4state : KMeans := add_centroid initState (.scalar 1)

/-- A centroid was added, then `reset_centroids` discarded the centroid list
while keeping the membership list. -/
def cexC5state : KMeans := reset_centroids (add_centroid initState (.pt [1]))

/-- A state with a nonempty and an empty cluster, for exercising the
recompute phase. -/
def stC6 : KMeans := ⟨[[0], [5]], [[[1], [3]], []], []⟩

/-- The partitioned state reached by `start()` on `exC12`. -/
def stC7 : KMeans := ⟨[[0], [3]], [[[0]], [[2], [3], [10]]], [[0], [2], [3], [10]]⟩

/-- A converged state: the single cluster holds its own centroid. -/
def fixState : KMeans := ⟨[[0]], [[[0]]], [[0]]⟩

/-- Data points 5 and 9 added as scalars (stored as 1-tuples) and already
assigned to their clusters. -/
def stC10 : KMeans := ⟨[[5], [9]], [[[5]], [[9]]], [[5], [9]]⟩

/-! ### Claims -/

/-- C1 (counterexample): on `exC12`, `start()` succeeds yet `run(0)` calls
`step()` once, not zero times — the loop condition `while self.step() != 0`
runs before the `max == 0` check. -/
theorem C1_counterexample :
    (start euclidean_distance exC12).1 = none ∧
      (run euclidean_distance exC12 0).2.2 ≠ 0 := by
  constructor
  · with_unfolding_all rfl
  · with_unfolding_all decide

/-- C1 (amended): for every engine state in which `start()` succeeds,
`run(0)` performs the initial assignment and makes exactly ONE call to
`step()` (the loop tests `step()` before checking the budget). -/
theorem C1_run_zero_one_step (d : DistFn) (s : KMeans)
    (h : (start d s).1 = none) : (run d s 0).2.2 = 1 :=
  run_zero_calls d s h

theorem C1_witness :
    (start euclidean_distance exC12).1 = none ∧
      (run euclidean_distance exC12 0).2.2 = 1 :=
  ⟨by with_unfolding_all rfl,
    C1_run_zero_one_step euclidean_distance exC12 (by with_unfolding_all rfl)⟩

/-- C2 (counterexample): on `exC12`, `start()` succeeds and `run(1)` calls
`step()` twice, exceeding the claimed cap of `max = 1` calls. -/
theorem C2_counterexample :
    (start euclidean_distance exC12).1 = none ∧
      ¬((run euclidean_distance exC12 1).2.2 ≤ 1) := by
  constructor
  · with_unfolding_all rfl
  · with_unfolding_all decide

/-- C2 (amended): for every `max > 0` and every engine state in which
`start()` succeeds, `run(max)` calls `step()` at most `max + 1` times
(the loop consumes one test call before each budget decrement), stopping
earlier if some `step()` returns 0. -/
theorem C2_run_calls_le (d : DistFn) (s : KMeans) (mx : Nat) (_hmx : 0 < mx)
    (_h : (start d s).1 = none) : (run d s mx).2.2 ≤ mx + 1 :=
  run_calls_le d s mx

theorem C2_witness :
    0 < 1 ∧ (start euclidean_distance exC12).1 = none ∧
      (run euclidean_distance exC12 1).2.2 ≤ 1 + 1 :=
  ⟨by decide, by with_unfolding_all rfl,
    C2_run_calls_le euclidean_distance exC12 1 (by decide)
      (by with_unfolding_all rfl)⟩

/-- C3 (counterexample): on a state with one centroid and data of mixed
dimensionality, `start()` raises `DimensionMismatch` AFTER mutating the
membership sets: the state after the failed call differs from the state
before it. -/
theorem C3_counterexample :
    (start euclidean_distance cexC3state).1 = some KError.DimensionMismatch ∧
      (start euclidean_distance cexC3state).2 ≠ cexC3state := by
  constructor
  · with_unfolding_all rfl
  · with_unfolding_all decide

/-- C3 (amended): the precondition errors `NoCentroidsDefined` (from
`start`) and `InsufficientData` (from `random_centroids`) are detected
before any state mutation and leave the engine unchanged; a
`DimensionMismatch` raised by the metric inside `start`/`step`, however, can
surface after membership mutations have already happened. -/
theorem C3_guard_errors_no_mutation (d : DistFn) (s : KMeans) (k : Nat)
    (choice : List Point) :
    (s.kctr.length = 0 → start d s = (some KError.NoCentroidsDefined, s)) ∧
    (s.data.length < k →
      random_centroids s k choice = (some KError.InsufficientData, s)) := by
  constructor
  · intro h
    unfold start
    rw [if_pos h]
  · intro h
    unfold random_centroids
    rw [if_pos h]

theorem C3_witness :
    start euclidean_distance initState =
        (some KError.NoCentroidsDefined, initState) ∧
      random_centroids initState 1 [] =
        (some KError.InsufficientData, initState) :=
  ⟨(C3_guard_errors_no_mutation euclidean_distance initState 1 []).1 (by decide),
    (C3_guard_errors_no_mutation euclidean_distance initState 1 []).2 (by decide)⟩

/-- C4 (counterexample): the centroid `(1,)` was added from the bare scalar
1; adding the same scalar again appends a duplicate centroid instead of
leaving the state unchanged, because the dedup guard compares the RAW
argument (never equal to a stored tuple) rather than its normalized form. -/
theorem C4_counterexample :
    normalizePt (.scalar 1) ∈ cexC4state.kctr ∧
      add_centroid cexC4state (.scalar 1) ≠ cexC4state := by
  constructor
  · with_unfolding_all decide
  · with_unfolding_all decide

/-- C4 (amended): `add_centroid` deduplicates on the RAW argument, not its
normalized form: when the raw argument compares equal to a stored centroid
the state is unchanged, otherwise the normalized centroid and one new empty
membership set are appended; a tuple argument matches a stored centroid by
value, while a bare scalar never matches (so scalars are always appended). -/
theorem C4_add_centroid_raw_dedup (s : KMeans) (a : PtArg) :
    (s.kctr.any (ptArgEqPoint a) = true → add_centroid s a = s) ∧
    (s.kctr.any (ptArgEqPoint a) = false →
      (add_centroid s a).kctr = s.kctr ++ [normalizePt a] ∧
      (add_centroid s a).kmem = s.kmem ++ [[]] ∧
      (add_centroid s a).data = s.data) ∧
    (∀ x : ℚ, a = PtArg.scalar x → s.kctr.any (ptArgEqPoint a) = false) ∧
    (∀ p : Point, a = PtArg.pt p →
      (s.kctr.any (ptArgEqPoint a) = true ↔ p ∈ s.kctr)) := by
  refine ⟨?_, ?_, ?_, ?_⟩
  · intro h
    unfold add_centroid
    rw [if_pos h]
  · intro h
    unfold add_centroid
    rw [if_neg (by rw [h]; exact Bool.false_ne_true)]
    exact ⟨rfl, rfl, rfl⟩
  · intro x hx
    subst hx
    simp [ptArgEqPoint]
  · intro p hp
    subst hp
    simp [ptArgEqPoint, List.any_eq_true]

theorem C4_witness :
    add_centroid (add_centroid initState (.pt [1])) (.pt [1]) =
        add_centroid initState (.pt [1]) ∧
      (add_centroid cexC4state (.scalar 1)).kctr =
        cexC4state.kctr ++ [normalizePt (.scalar 1)] :=
  ⟨(C4_add_centroid_raw_dedup (add_centroid initState (.pt [1])) (.pt [1])).1
      (by with_unfolding_all decide),
    ((C4_add_centroid_raw_dedup cexC4state (.scalar 1)).2.1
      (by with_unfolding_all decide)).1⟩

/-- C5 (counterexample): after `add_centroid` then `reset_centroids` — both
public operations — the membership list has one entry while the centroid
list is empty, so the two are not parallel. -/
theorem C5_counterexample :
    cexC5state.kmem.length ≠ cexC5state.kctr.length := by
  with_unfolding_all decide

/-- C5 (amended): every public operation EXCEPT `reset_centroids` preserves
the parallel-structure invariant `|membership list| = |centroid list|`
(`reset_centroids` empties the centroid list but leaves the stale membership
list in place, breaking parallelism until the next `clear` or
`random_centroids`). -/
theorem C5_parallel_invariant (d : DistFn) (s : KMeans) (args : List PtArg)
    (a : PtArg) (k : Nat) (choice : List Point) (mx : Nat)
    (h : s.kmem.length = s.kctr.length) :
    (clear s).kmem.length = (clear s).kctr.length ∧
    (add_data s args).kmem.length = (add_data s args).kctr.length ∧
    (add_centroid s a).kmem.length = (add_centroid s a).kctr.length ∧
    (reset_clusters s).kmem.length = (reset_clusters s).kctr.length ∧
    (random_centroids s k choice).2.kmem.length =
      (random_centroids s k choice).2.kctr.length ∧
    (start d s).2.kmem.length = (start d s).2.kctr.length ∧
    (step d s).2.1.kmem.length = (step d s).2.1.kctr.length ∧
    (run d s mx).2.1.kmem.length = (run d s mx).2.1.kctr.length := by
  refine ⟨rfl, h, ?_, ?_, ?_, ?_, ?_, ?_⟩
  · unfold add_centroid
    split
    · exact h
    · simp only [List.length_append, List.length_cons, List.length_nil]
      omega
  · simp only [reset_clusters, List.length_map]
    exact h
  · unfold random_centroids
    split
    · exact h
    · simp only [List.length_map]
  · rw [start_kmem_length, start_kctr]
    exact h
  · rw [step_kmem_length, step_kctr_length]
    exact h
  · obtain ⟨h1, h2⟩ := run_lengths d s mx
    rw [h1, h2]
    exact h

theorem C5_witness :
    exC12.kmem.length = exC12.kctr.length ∧
      (step euclidean_distance exC12).2.1.kmem.length =
        (step euclidean_distance exC12).2.1.kctr.length :=
  ⟨by with_unfolding_all decide,
    (C5_parallel_invariant euclidean_distance exC12 [] (.scalar 0) 0 [] 0
      (by with_unfolding_all decide)).2.2.2.2.2.2.1⟩

/-- C6: in the recompute phase of `step()`, every cluster with at least one
member has its centroid replaced by the component-wise arithmetic mean of
its members (shorter members padded with zero on missing trailing
components), and every cluster with zero members keeps its previous
centroid. -/
theorem C6_recompute_phase (d : DistFn) (s : KMeans) (i : Nat)
    (hi : i < s.kctr.length) :
    (step d s).2.1.kctr.getD i [] =
      if 0 < (s.kmem.getD i []).length then
        specCentroidMean (s.kmem.getD i [])
      else s.kctr.getD i [] := by
  have hk : (step d s).2.1.kctr = recompute s.kctr s.kmem := by
    simp only [step]
  rw [hk, recompute_getD s.kctr s.kmem i hi]
  split
  · exact centroid_eq_specMean _
  · rfl

theorem C6_witness :
    (0 < stC6.kctr.length ∧
      (step euclidean_distance stC6).2.1.kctr.getD 0 [] =
        if 0 < (stC6.kmem.getD 0 []).length then
          specCentroidMean (stC6.kmem.getD 0 [])
        else stC6.kctr.getD 0 []) ∧
    (1 < stC6.kctr.length ∧
      (step euclidean_distance stC6).2.1.kctr.getD 1 [] =
        if 0 < (stC6.kmem.getD 1 []).length then
          specCentroidMean (stC6.kmem.getD 1 [])
        else stC6.kctr.getD 1 []) :=
  ⟨⟨by decide, C6_recompute_phase euclidean_distance stC6 0 (by decide)⟩,
    ⟨by decide, C6_recompute_phase euclidean_distance stC6 1 (by decide)⟩⟩

/-- C7: under the default squared-Euclidean metric, for every partitioned
state (parallel lists, duplicate-free memberships, all points and centroids
of dimension `n`), the sum over all sample points of the squared distance to
their assigned centroid does not increase across a `step()` call. -/
theorem C7_step_cost_monotone {n : Nat} (s : KMeans)
    (hLen : s.kmem.length = s.kctr.length)
    (hctr : ∀ c ∈ s.kctr, c.length = n)
    (hinv : memInv n s.kmem) :
    stateCost (step euclidean_distance s).2.1 ≤ stateCost s :=
  (step_spec s hLen hctr hinv).2

theorem C7_witness :
    (stC7.kmem.length = stC7.kctr.length ∧
      (∀ c ∈ stC7.kctr, c.length = 1) ∧ memInv 1 stC7.kmem) ∧
    stateCost (step euclidean_distance stC7).2.1 ≤ stateCost stC7 :=
  ⟨⟨by decide, by decide, by decide⟩,
    @C7_step_cost_monotone 1 stC7 (by decide) (by decide) (by decide)⟩

/-- C8: for every engine with a non-empty centroid list and points and
centroids all of dimension `n`, `start()` succeeds, the union of the
resulting cluster membership sets is exactly the sample set, and the
membership sets are pairwise disjoint. -/
theorem C8_start_partition {n : Nat} (s : KMeans)
    (hne : s.kctr ≠ [])
    (hle : s.kctr.length ≤ s.kmem.length)
    (hdata : ∀ p ∈ s.data, p.length = n)
    (hctr : ∀ c ∈ s.kctr, c.length = n) :
    (start euclidean_distance s).1 = none ∧
    (∀ q : Point, (∃ i, i < (start euclidean_distance s).2.kmem.length ∧
        q ∈ (start euclidean_distance s).2.kmem.getD i []) ↔ q ∈ s.data) ∧
    (∀ i j, i < j → j < (start euclidean_distance s).2.kmem.length →
      ∀ q : Point, q ∈ (start euclidean_distance s).2.kmem.getD i [] →
        q ∉ (start euclidean_distance s).2.kmem.getD j []) :=
  start_spec s hne hle hdata hctr

theorem C8_witness :
    (exC12.kctr ≠ [] ∧ exC12.kctr.length ≤ exC12.kmem.length ∧
      (∀ p ∈ exC12.data, p.length = 1) ∧ (∀ c ∈ exC12.kctr, c.length = 1)) ∧
    (start euclidean_distance exC12).1 = none :=
  ⟨⟨by with_unfolding_all decide, by with_unfolding_all decide,
      by with_unfolding_all decide, by with_unfolding_all decide⟩,
    (@C8_start_partition 1 exC12 (by with_unfolding_all decide)
      (by with_unfolding_all decide) (by with_unfolding_all decide)
      (by with_unfolding_all decide)).1⟩

/-- C9: for every state and any metric, if `step()` returns 0 moves then an
immediately following `step()` also returns 0 and leaves the centroids and
the membership sets (the whole state) unchanged. -/
theorem C9_step_zero_fixed_point (d : DistFn) (s s1 : KMeans)
    (h : step d s = (none, s1, 0)) : step d s1 = (none, s1, 0) :=
  step_fixed_point d s s1 h

theorem C9_witness : step euclidean_distance fixState = (none, fixState, 0) :=
  C9_step_zero_fixed_point euclidean_distance fixState fixState
    (by with_unfolding_all rfl)

/-- C10: `find_cluster` does not normalize its argument: for a sample point
that was added as a bare scalar (stored as a 1-tuple) and sits in some
cluster, calling `find_cluster` with the bare scalar finds no membership
match (a scalar is never equal to a stored tuple), falls through to the
direct distance computation, and under the default metric fails with the
`TypeError` that `len()` raises on a scalar instead of returning the
centroid of the cluster containing the 1-tuple. -/
theorem C10_find_cluster_scalar_fails (s : KMeans) (x : ℚ) (i : Nat)
    (_hi : i < s.kmem.length) (_hmem : [x] ∈ s.kmem.getD i [])
    (hne : s.kctr ≠ []) :
    s.kmem.findIdx? (fun mem => mem.any (fun q => ptArgEqPoint (.scalar x) q))
        = none ∧
    find_cluster euclidean_distance_arg s (.scalar x) =
      .error KError.TypeMismatch := by
  have hfind : s.kmem.findIdx?
      (fun mem => mem.any (fun q => ptArgEqPoint (.scalar x) q)) = none := by
    simp [List.findIdx?_eq_none_iff, ptArgEqPoint]
  refine ⟨hfind, ?_⟩
  unfold find_cluster
  rw [hfind]
  cases hc : s.kctr with
  | nil => exact absurd hc hne
  | cons c rest => simp [argmin, euclidean_distance_arg]

theorem C10_witness :
    (0 < stC10.kmem.length ∧ [(5 : ℚ)] ∈ stC10.kmem.getD 0 [] ∧
      stC10.kctr ≠ []) ∧
    find_cluster euclidean_distance_arg stC10 (.scalar 5) =
      .error KError.TypeMismatch :=
  ⟨⟨by decide, by decide, by decide⟩,
    (C10_find_cluster_scalar_fails stC10 5 0 (by decide) (by decide)
      (by decide)).2⟩
